import Mathlib

/-!
Verification of the grid path-search core of `ROBOT.py`: the move validator
`is_valid_move`, the breadth-first search `bfs` and the depth-first search
`dfs`, both of which explore the grid via a frontier, a visited set and a
predecessor map, and reconstruct the returned path by walking predecessors
from the destination back to the start.
-/

namespace Robot

/-- A grid cell: a `(row, column)` pair of integers, as the Python tuples. -/
abbrev Cell := Int × Int

/-- The occupancy grid: a list of rows, each row a list of flags
(`0` = free, anything else = blocked). -/
abbrev Grid := List (List Nat)

/-- `directions = [(-1, 0), (1, 0), (0, -1), (0, 1)]` — up, down, left, right. -/
def directions : List (Int × Int) := [(-1, 0), (1, 0), (0, -1), (0, 1)]

/-- `len(grid)`. -/
def rows (grid : Grid) : Nat := grid.length

/-- `len(grid[0])` (0 when the grid is empty). -/
def cols (grid : Grid) : Nat := (grid.headD []).length

/-- Occupancy lookup `grid[x][y]`; only consulted after the bounds checks,
out-of-range coordinates default to blocked. -/
def cellAt (grid : Grid) (x y : Int) : Nat := (grid.getD x.toNat []).getD y.toNat 1

/-- `0 <= x < len(grid) and 0 <= y < len(grid[0])`. -/
def inBounds (grid : Grid) (c : Cell) : Bool :=
  decide (0 ≤ c.1) && decide (c.1 < (rows grid : Int)) &&
    decide (0 ≤ c.2) && decide (c.2 < (cols grid : Int))

/-- `grid[x][y] == 0`. -/
def freeCell (grid : Grid) (c : Cell) : Bool := cellAt grid c.1 c.2 == 0

/-- `is_valid_move`: within bounds, not blocked, and not visited.  The visited
matrix (only ever read and written at in-bounds cells) is modelled as the list
of cells marked so far. -/
def is_valid_move (x y : Int) (grid : Grid) (visited : List Cell) : Bool :=
  inBounds grid (x, y) && freeCell grid (x, y) && decide ((x, y) ∉ visited)

/-- Association-list lookup for the predecessor map `parent`.
An entry `(c, none)` is Python's `parent[c] = None`. -/
def lookup : List (Cell × Option Cell) → Cell → Option (Option Cell)
  | [], _ => none
  | (k, v) :: rest, c => if c = k then some v else lookup rest c

/-- The reconstruction loop `while current: path.append(current); current =
parent[current]`, collecting destination first.  The fuel only has to cover
the length of the predecessor chain. -/
def backtrack (parent : List (Cell × Option Cell)) : Nat → Cell → List Cell
  | 0, _ => []
  | fuel + 1, current =>
    current :: (match lookup parent current with
      | some (some p) => backtrack parent fuel p
      | _ => [])

/-- Path reconstruction: walk predecessors from the reached destination, then
reverse (`return path[::-1]`). -/
def reconstructPath (parent : List (Cell × Option Cell)) (current : Cell) : List Cell :=
  (backtrack parent parent.length current).reverse

/-- The body of `for direction in directions`: compute the candidate cell and,
when `is_valid_move` accepts it (against the visited set as already updated by
earlier directions of the same expansion), mark it visited, record its
predecessor and append it to the new-frontier segment. -/
def expandStep (grid : Grid) (current : Cell)
    (acc : List Cell × List Cell × List (Cell × Option Cell)) (d : Int × Int) :
    List Cell × List Cell × List (Cell × Option Cell) :=
  let c : Cell := (current.1 + d.1, current.2 + d.2)
  if is_valid_move c.1 c.2 grid acc.2.1 then
    (acc.1 ++ [c], c :: acc.2.1, (c, some current) :: acc.2.2)
  else acc

/-- One expansion of `current`: the whole direction loop.  Returns the newly
discovered cells in direction order together with the updated visited set and
predecessor map. -/
def expand (grid : Grid) (current : Cell) (visited : List Cell)
    (parent : List (Cell × Option Cell)) :
    List Cell × List Cell × List (Cell × Option Cell) :=
  directions.foldl (expandStep grid current) ([], visited, parent)

/-- The `while queue` / `while stack` loop, parameterised by the frontier
discipline `push frontier newcells`.  The head of the frontier list is the
next element removed (`popleft` for the deque, `pop` for the stack, see
`pushBFS` and `pushDFS`).  The fuel argument is a modelling device; it is
chosen large enough that it never runs out (see the termination theorem). -/
def searchLoop (push : List Cell → List Cell → List Cell) (grid : Grid) (endc : Cell) :
    Nat → List Cell → List Cell → List (Cell × Option Cell) → List Cell
  | 0, _, _, _ => []
  | _ + 1, [], _, _ => []
  | fuel + 1, current :: rest, visited, parent =>
    if current = endc then reconstructPath parent current
    else
      let s := expand grid current visited parent
      searchLoop push grid endc fuel (push rest s.1) s.2.1 s.2.2

/-- FIFO discipline: `queue.append` at the tail, `popleft` at the head. -/
def pushBFS (q ns : List Cell) : List Cell := q ++ ns

/-- LIFO discipline: the frontier list is kept top-first, so `stack.append`
of the candidates (in direction order) puts them reversed in front and
`stack.pop` removes the head. -/
def pushDFS (q ns : List Cell) : List Cell := ns.reverse ++ q

/-- Fuel sufficient for any search: one loop iteration per possible dequeue. -/
def searchFuel (grid : Grid) : Nat := rows grid * cols grid + 1

/-- `bfs(start, end, grid)`: breadth-first search. -/
def bfs (start endc : Cell) (grid : Grid) : List Cell :=
  searchLoop pushBFS grid endc (searchFuel grid) [start] [start] [(start, none)]

/-- `dfs(start, end, grid)`: depth-first search. -/
def dfs (start endc : Cell) (grid : Grid) : List Cell :=
  searchLoop pushDFS grid endc (searchFuel grid) [start] [start] [(start, none)]

/-! ## Specification-side notions -/

/-- One legal robot move: `b` is one of the four direction offsets away from
`a`, and `b` is in bounds and free. -/
def step (grid : Grid) (a b : Cell) : Prop :=
  (∃ d ∈ directions, b = (a.1 + d.1, a.2 + d.2)) ∧
    inBounds grid b = true ∧ freeCell grid b = true

instance stepDecidable (grid : Grid) (a b : Cell) : Decidable (step grid a b) := by
  unfold step
  infer_instance

/-- `ValidPath grid start c p`: `p` is a 4-directional path from `start` to
`c` all of whose cells after the first are in-bounds free cells. -/
inductive ValidPath (grid : Grid) (start : Cell) : Cell → List Cell → Prop
  | single : ValidPath grid start start [start]
  | snoc {c c' : Cell} {p : List Cell} :
      ValidPath grid start c p → step grid c c' → ValidPath grid start c' (p ++ [c'])

/-- The destination is connected to the start through free cells. -/
def Reachable (grid : Grid) (start c : Cell) : Prop := ∃ p, ValidPath grid start c p

/-- `Chain parent c l`: `l` is the predecessor chain collected from `c` down
to the cell mapped to `none` (the start). -/
inductive Chain (parent : List (Cell × Option Cell)) : Cell → List Cell → Prop
  | base {c} : lookup parent c = some none → Chain parent c [c]
  | cons {c p l} : lookup parent c = some (some p) → Chain parent p l →
      Chain parent c (c :: l)

/-- `n` is the least number of edges of any valid path from `start` to `c`. -/
def EdgeDist (grid : Grid) (start c : Cell) (n : Nat) : Prop :=
  (∃ p, ValidPath grid start c p ∧ p.length = n + 1) ∧
    ∀ p, ValidPath grid start c p → n + 1 ≤ p.length

/-- Number of in-bounds cells not yet visited (the loop measure, together with
the frontier length). -/
def unvisitedCount (grid : Grid) (visited : List Cell) : Nat :=
  (((Finset.range (rows grid)) ×ˢ (Finset.range (cols grid))).filter
    (fun p => ((p.1 : Int), (p.2 : Int)) ∉ visited)).card

/-- `manhattan a b`: the Manhattan distance between two cells. -/
def manhattan (a b : Cell) : Nat := (a.1 - b.1).natAbs + (a.2 - b.2).natAbs

/-- The loop invariant shared by both traversals. -/
structure Inv (grid : Grid) (start endc : Cell)
    (queue visited : List Cell) (parent : List (Cell × Option Cell)) : Prop where
  start_vis : start ∈ visited
  queue_sub : ∀ c ∈ queue, c ∈ visited
  vis_nodup : visited.Nodup
  queue_nodup : queue.Nodup
  vis_ok : ∀ c ∈ visited, c = start ∨ (inBounds grid c = true ∧ freeCell grid c = true)
  parent_len : parent.length = visited.length
  chain_of_vis : ∀ c ∈ visited, ∃ l, Chain parent c l ∧
    ValidPath grid start c l.reverse ∧ l.Nodup ∧ ∀ x ∈ l, x ∈ visited
  expanded : ∀ c ∈ visited, c ∉ queue → ∀ d ∈ directions,
    inBounds grid (c.1 + d.1, c.2 + d.2) = true →
    freeCell grid (c.1 + d.1, c.2 + d.2) = true →
    (c.1 + d.1, c.2 + d.2) ∈ visited
  end_in_queue : endc ∈ visited → endc ∈ queue

/-- The additional invariant of the FIFO discipline: the frontier is sorted by
distance from the start, spans at most two consecutive distance levels, and
every visited cell's predecessor chain realises its exact distance. -/
structure BfsInv (grid : Grid) (start endc : Cell)
    (queue visited : List Cell) (parent : List (Cell × Option Cell))
    extends Inv grid start endc queue visited parent : Prop where
  dist_chain : ∀ c ∈ visited, ∃ n l, EdgeDist grid start c n ∧ Chain parent c l ∧
    l.length = n + 1
  queue_dists : ∃ ds : List Nat, List.Forall₂ (fun c n => EdgeDist grid start c n) queue ds ∧
    ds.Sorted (· ≤ ·) ∧ ∀ x ∈ ds, ∀ y ∈ ds, x ≤ y + 1

/-! ## Lookup, chain and reconstruction lemmas -/

theorem lookup_isSome_iff (l : List (Cell × Option Cell)) (c : Cell) :
    (lookup l c).isSome = true ↔ c ∈ l.map Prod.fst := by
  induction l with
  | nil => simp [lookup]
  | cons kv rest ih =>
    obtain ⟨k, v⟩ := kv
    by_cases h : c = k <;> simp [lookup, h, ih]

theorem lookup_eq_none_of_not_mem {l : List (Cell × Option Cell)} {c : Cell}
    (h : c ∉ l.map Prod.fst) : lookup l c = none := by
  cases hl : lookup l c with
  | none => rfl
  | some v => exact absurd ((lookup_isSome_iff l c).1 (by simp [hl])) h

theorem lookup_append (l₁ l₂ : List (Cell × Option Cell)) (c : Cell) :
    lookup (l₁ ++ l₂) c = match lookup l₁ c with
      | some v => some v
      | none => lookup l₂ c := by
  induction l₁ with
  | nil => simp [lookup]
  | cons kv rest ih =>
    obtain ⟨k, v⟩ := kv
    by_cases h : c = k <;> simp [lookup, h, ih]

theorem lookup_append_right {l₁ : List (Cell × Option Cell)} {c : Cell}
    (h : c ∉ l₁.map Prod.fst) (l₂ : List (Cell × Option Cell)) :
    lookup (l₁ ++ l₂) c = lookup l₂ c := by
  rw [lookup_append, lookup_eq_none_of_not_mem h]

theorem lookup_map_value (f : Cell → Option Cell) :
    ∀ (l : List Cell) (c : Cell), c ∈ l →
      lookup (l.map fun x => (x, f x)) c = some (f c) := by
  intro l
  induction l with
  | nil => simp
  | cons a t ih =>
    intro c hc
    by_cases h : c = a
    · subst h; simp [lookup]
    · have hmem : c ∈ t := by
        rcases List.mem_cons.1 hc with h' | h'
        · exact absurd h' h
        · exact h'
      simpa [lookup, h] using ih c hmem

theorem chain_shape {parent : List (Cell × Option Cell)} {c : Cell} {l : List Cell}
    (h : Chain parent c l) : ∃ t, l = c :: t := by
  cases h with
  | base _ => exact ⟨[], rfl⟩
  | cons _ _ => exact ⟨_, rfl⟩

theorem chain_unique {parent : List (Cell × Option Cell)} {c : Cell} {l₁ l₂ : List Cell}
    (h₁ : Chain parent c l₁) (h₂ : Chain parent c l₂) : l₁ = l₂ := by
  induction h₁ generalizing l₂ with
  | base hc =>
    cases h₂ with
    | base _ => rfl
    | cons hc' _ => rw [hc] at hc'; exact absurd hc' (by simp)
  | cons hc hp ih =>
    cases h₂ with
    | base hc' => rw [hc] at hc'; exact absurd hc' (by simp)
    | cons hc' hp' =>
      rw [hc] at hc'
      have hpq : _ = _ := Option.some.inj (Option.some.inj hc')
      subst hpq
      rw [ih hp']

theorem chain_stable {parent parent' : List (Cell × Option Cell)} {c : Cell} {l : List Cell}
    (h : Chain parent c l) (hst : ∀ x ∈ l, lookup parent' x = lookup parent x) :
    Chain parent' c l := by
  induction h with
  | base hc => exact Chain.base (by rw [hst _ (by simp), hc])
  | cons hc hp ih =>
    exact Chain.cons (by rw [hst _ (by simp), hc])
      (ih fun x hx => hst x (by simp [hx]))

theorem backtrack_of_chain {parent : List (Cell × Option Cell)} {c : Cell} {l : List Cell}
    (h : Chain parent c l) : ∀ fuel, l.length ≤ fuel → backtrack parent fuel c = l := by
  induction h with
  | base hc =>
    intro fuel hf
    match fuel with
    | 0 => simp at hf
    | f + 1 => simp [backtrack, hc]
  | cons hc hp ih =>
    intro fuel hf
    match fuel with
    | 0 => simp at hf
    | f + 1 =>
      simp only [backtrack, hc]
      rw [ih f (by simpa using hf)]

/-! ## Valid-path lemmas -/

theorem validPath_shape {grid : Grid} {start c : Cell} {p : List Cell}
    (h : ValidPath grid start c p) :
    ∃ t, p = start :: t ∧ ∀ x ∈ t, inBounds grid x = true ∧ freeCell grid x = true := by
  induction h with
  | single => exact ⟨[], rfl, by simp⟩
  | @snoc c₀ c' p hp hs ih =>
    obtain ⟨t, rfl, ht⟩ := ih
    refine ⟨t ++ [c'], by simp, ?_⟩
    intro x hx
    rcases List.mem_append.1 hx with hx | hx
    · exact ht x hx
    · simp at hx; subst hx; exact ⟨hs.2.1, hs.2.2⟩

theorem validPath_ne_nil {grid : Grid} {start c : Cell} {p : List Cell}
    (h : ValidPath grid start c p) : p ≠ [] := by
  obtain ⟨t, rfl, -⟩ := validPath_shape h; simp

theorem validPath_length_pos {grid : Grid} {start c : Cell} {p : List Cell}
    (h : ValidPath grid start c p) : 1 ≤ p.length := by
  obtain ⟨t, rfl, -⟩ := validPath_shape h; simp

theorem validPath_head {grid : Grid} {start c : Cell} {p : List Cell}
    (h : ValidPath grid start c p) : p.head? = some start := by
  obtain ⟨t, rfl, -⟩ := validPath_shape h; rfl

theorem validPath_getLast {grid : Grid} {start c : Cell} {p : List Cell}
    (h : ValidPath grid start c p) : p.getLast? = some c := by
  induction h with
  | single => rfl
  | snoc hp hs ih => simp [List.getLast?_concat]

theorem validPath_chain' {grid : Grid} {start c : Cell} {p : List Cell}
    (h : ValidPath grid start c p) :
    p.Chain' (fun a b => ∃ d ∈ directions, b = (a.1 + d.1, a.2 + d.2)) := by
  induction h with
  | single => simp
  | snoc hp hs ih =>
    refine (List.chain'_append).2 ⟨ih, by simp, ?_⟩
    intro x hx y hy
    rw [validPath_getLast hp] at hx
    simp at hx hy
    subst hx; subst hy
    exact hs.1

theorem validPath_dest {grid : Grid} {start c : Cell} {p : List Cell}
    (h : ValidPath grid start c p) :
    c = start ∨ (inBounds grid c = true ∧ freeCell grid c = true) := by
  cases h with
  | single => exact Or.inl rfl
  | snoc hp hs => exact Or.inr ⟨hs.2.1, hs.2.2⟩

/-! ## Edge-distance lemmas -/

theorem edgeDist_unique {grid : Grid} {start c : Cell} {n m : Nat}
    (hn : EdgeDist grid start c n) (hm : EdgeDist grid start c m) : n = m := by
  obtain ⟨⟨p, hp, hlen⟩, hmin⟩ := hn
  obtain ⟨⟨q, hq, hlen'⟩, hmin'⟩ := hm
  have h₁ := hmin' p hp
  have h₂ := hmin q hq
  omega

theorem edgeDist_start (grid : Grid) (start : Cell) : EdgeDist grid start start 0 := by
  refine ⟨⟨[start], ValidPath.single, rfl⟩, ?_⟩
  intro p hp
  simpa using validPath_length_pos hp

/-! ## Forall₂ helpers -/

theorem forall₂_mem_left {R : Cell → Nat → Prop} {l₁ : List Cell} {l₂ : List Nat}
    (h : List.Forall₂ R l₁ l₂) : ∀ {a}, a ∈ l₁ → ∃ b ∈ l₂, R a b := by
  induction h with
  | nil => simp
  | cons hr ht ih =>
    intro a ha
    rcases List.mem_cons.1 ha with rfl | ha
    · exact ⟨_, by simp, hr⟩
    · obtain ⟨b, hb, hrb⟩ := ih ha
      exact ⟨b, by simp [hb], hrb⟩

theorem forall₂_replicate {R : Cell → Nat → Prop} {n : Nat} :
    ∀ {l : List Cell}, (∀ c ∈ l, R c n) →
      List.Forall₂ R l (List.replicate l.length n) := by
  intro l
  induction l with
  | nil => intro _; simp
  | cons a t ih =>
    intro h
    rw [List.length_cons, List.replicate_succ]
    exact List.Forall₂.cons (h a (by simp)) (ih fun c hc => h c (by simp [hc]))

/-! ## Expansion-step characterisation -/

theorem is_valid_move_iff {x y : Int} {grid : Grid} {visited : List Cell} :
    is_valid_move x y grid visited = true ↔
      inBounds grid (x, y) = true ∧ freeCell grid (x, y) = true ∧ (x, y) ∉ visited := by
  simp [is_valid_move, Bool.and_eq_true, and_assoc]

theorem expandFold_spec (grid : Grid) (current : Cell) :
    ∀ (ds : List (Int × Int)) (ns visited : List Cell) (parent : List (Cell × Option Cell)),
    ∃ new : List Cell,
      ds.foldl (expandStep grid current) (ns, visited, parent) =
        (ns ++ new, new.reverse ++ visited,
          (new.map fun c => (c, some current)).reverse ++ parent) ∧
      (∀ c ∈ new, inBounds grid c = true ∧ freeCell grid c = true ∧ c ∉ visited ∧
        ∃ d ∈ ds, c = (current.1 + d.1, current.2 + d.2)) ∧
      new.Nodup ∧
      (∀ d ∈ ds, inBounds grid (current.1 + d.1, current.2 + d.2) = true →
        freeCell grid (current.1 + d.1, current.2 + d.2) = true →
        (current.1 + d.1, current.2 + d.2) ∈ new ∨
          (current.1 + d.1, current.2 + d.2) ∈ visited) := by
  intro ds
  induction ds with
  | nil =>
    intro ns visited parent
    exact ⟨[], by simp, by simp, List.nodup_nil, by simp⟩
  | cons d ds ih =>
    intro ns visited parent
    rw [List.foldl_cons]
    by_cases hv : is_valid_move (current.1 + d.1) (current.2 + d.2) grid visited = true
    · have hstep : expandStep grid current (ns, visited, parent) d =
          (ns ++ [(current.1 + d.1, current.2 + d.2)],
            (current.1 + d.1, current.2 + d.2) :: visited,
            ((current.1 + d.1, current.2 + d.2), some current) :: parent) := by
        simp [expandStep, hv]
      rw [hstep]
      obtain ⟨new', heq, hprops, hnd, hcov⟩ := ih (ns ++ [(current.1 + d.1, current.2 + d.2)])
        ((current.1 + d.1, current.2 + d.2) :: visited)
        (((current.1 + d.1, current.2 + d.2), some current) :: parent)
      obtain ⟨hib, hfree, hnvis⟩ := is_valid_move_iff.1 hv
      refine ⟨(current.1 + d.1, current.2 + d.2) :: new', ?_, ?_, ?_, ?_⟩
      · rw [heq]
        simp
      · intro c hc
        rcases List.mem_cons.1 hc with rfl | hc
        · exact ⟨hib, hfree, hnvis, d, by simp, rfl⟩
        · obtain ⟨hib', hfree', hnvis', d', hd', hc'⟩ := hprops c hc
          exact ⟨hib', hfree', fun hmem => hnvis' (by simp [hmem]), d', by simp [hd'], hc'⟩
      · refine List.Nodup.cons ?_ hnd
        intro hmem
        exact (hprops _ hmem).2.2.1 (by simp)
      · intro d' hd' hib' hfree'
        rcases List.mem_cons.1 hd' with rfl | hd'
        · exact Or.inl (by simp)
        · rcases hcov d' hd' hib' hfree' with h | h
          · exact Or.inl (by simp [h])
          · rcases List.mem_cons.1 h with h' | h'
            · exact Or.inl (by simp [h'])
            · exact Or.inr h'
    · have hstep : expandStep grid current (ns, visited, parent) d = (ns, visited, parent) := by
        simp [expandStep, hv]
      rw [hstep]
      obtain ⟨new', heq, hprops, hnd, hcov⟩ := ih ns visited parent
      refine ⟨new', heq, ?_, hnd, ?_⟩
      · intro c hc
        obtain ⟨hib', hfree', hnvis', d', hd', hc'⟩ := hprops c hc
        exact ⟨hib', hfree', hnvis', d', by simp [hd'], hc'⟩
      · intro d' hd' hib' hfree'
        rcases List.mem_cons.1 hd' with rfl | hd'
        · right
          have : ¬(inBounds grid (current.1 + d'.1, current.2 + d'.2) = true ∧
              freeCell grid (current.1 + d'.1, current.2 + d'.2) = true ∧
              (current.1 + d'.1, current.2 + d'.2) ∉ visited) :=
            fun hcon => hv (is_valid_move_iff.2 hcon)
          by_contra hnvis
          exact this ⟨hib', hfree', hnvis⟩
        · exact hcov d' hd' hib' hfree'

theorem expand_spec (grid : Grid) (current : Cell) (visited : List Cell)
    (parent : List (Cell × Option Cell)) :
    ∃ new : List Cell,
      expand grid current visited parent =
        (new, new.reverse ++ visited,
          (new.map fun c => (c, some current)).reverse ++ parent) ∧
      (∀ c ∈ new, inBounds grid c = true ∧ freeCell grid c = true ∧ c ∉ visited ∧
        step grid current c) ∧
      new.Nodup ∧
      (∀ d ∈ directions, inBounds grid (current.1 + d.1, current.2 + d.2) = true →
        freeCell grid (current.1 + d.1, current.2 + d.2) = true →
        (current.1 + d.1, current.2 + d.2) ∈ new ∨
          (current.1 + d.1, current.2 + d.2) ∈ visited) := by
  obtain ⟨new, heq, hprops, hnd, hcov⟩ := expandFold_spec grid current directions [] visited parent
  refine ⟨new, by simpa [expand] using heq, ?_, hnd, hcov⟩
  intro c hc
  obtain ⟨hib, hfree, hvis, d, hd, hc'⟩ := hprops c hc
  exact ⟨hib, hfree, hvis, ⟨d, hd, hc'⟩, hib, hfree⟩

/-! ## Invariant preservation -/

theorem inBounds_iff {grid : Grid} {c : Cell} :
    inBounds grid c = true ↔
      0 ≤ c.1 ∧ c.1 < (rows grid : Int) ∧ 0 ≤ c.2 ∧ c.2 < (cols grid : Int) := by
  simp [inBounds, Bool.and_eq_true, and_assoc]

theorem inv_preserved {grid : Grid} {start endc current : Cell} {rest visited new : List Cell}
    {parent : List (Cell × Option Cell)}
    (inv : Inv grid start endc (current :: rest) visited parent) (hne : current ≠ endc)
    (push : List Cell → List Cell → List Cell)
    (hmem : ∀ q ns c, c ∈ push q ns ↔ c ∈ q ∨ c ∈ ns)
    (hpnd : ∀ q ns, q.Nodup → ns.Nodup → (∀ a ∈ ns, a ∉ q) → (push q ns).Nodup)
    (hprops : ∀ c ∈ new, inBounds grid c = true ∧ freeCell grid c = true ∧ c ∉ visited ∧
      step grid current c)
    (hnodup : new.Nodup)
    (hcov : ∀ d ∈ directions, inBounds grid (current.1 + d.1, current.2 + d.2) = true →
      freeCell grid (current.1 + d.1, current.2 + d.2) = true →
      (current.1 + d.1, current.2 + d.2) ∈ new ∨ (current.1 + d.1, current.2 + d.2) ∈ visited) :
    Inv grid start endc (push rest new) (new.reverse ++ visited)
      ((new.map fun c => (c, some current)).reverse ++ parent) := by
  have hcur_vis : current ∈ visited := inv.queue_sub current (by simp)
  have hdisj : ∀ a ∈ new, a ∉ visited := fun a ha => (hprops a ha).2.2.1
  have hmapfst : ∀ (l : List Cell), (l.map fun c => (c, some current)).map Prod.fst = l := by
    intro l
    induction l with
    | nil => rfl
    | cons a t ih => simp only [List.map_cons, ih]
  have hkeys : ((new.map fun c => (c, some current)).reverse.map Prod.fst) = new.reverse := by
    rw [List.map_reverse, hmapfst]
  have hstable : ∀ x ∈ visited,
      lookup ((new.map fun c => (c, some current)).reverse ++ parent) x = lookup parent x := by
    intro x hx
    refine lookup_append_right ?_ parent
    rw [hkeys]
    intro hmem'
    exact hdisj x (List.mem_reverse.1 hmem') hx
  have hlook_new : ∀ x ∈ new,
      lookup ((new.map fun c => (c, some current)).reverse ++ parent) x =
        some (some current) := by
    intro x hx
    have h₁ : lookup ((new.map fun c => (c, some current)).reverse) x = some (some current) := by
      have h₂ := lookup_map_value (fun _ => some current) new.reverse x (List.mem_reverse.2 hx)
      rw [List.map_reverse] at h₂
      exact h₂
    rw [lookup_append, h₁]
  refine ⟨?_, ?_, ?_, ?_, ?_, ?_, ?_, ?_, ?_⟩
  · exact List.mem_append.2 (Or.inr inv.start_vis)
  · intro c hc
    rcases (hmem rest new c).1 hc with hc | hc
    · exact List.mem_append.2 (Or.inr (inv.queue_sub c (by simp [hc])))
    · exact List.mem_append.2 (Or.inl (List.mem_reverse.2 hc))
  · exact List.Nodup.append (List.nodup_reverse.2 hnodup) inv.vis_nodup
      (fun a ha ha' => hdisj a (List.mem_reverse.1 ha) ha')
  · refine hpnd rest new (List.nodup_cons.1 inv.queue_nodup).2 hnodup ?_
    intro a ha ha'
    exact hdisj a ha (inv.queue_sub a (by simp [ha']))
  · intro c hc
    rcases List.mem_append.1 hc with hc | hc
    · have := hprops c (List.mem_reverse.1 hc)
      exact Or.inr ⟨this.1, this.2.1⟩
    · exact inv.vis_ok c hc
  · simp only [List.length_append, List.length_reverse, List.length_map]
    rw [inv.parent_len]
  · intro c hc
    rcases List.mem_append.1 hc with hc | hc
    · -- newly discovered cell: extend the chain of `current`
      have hcnew := List.mem_reverse.1 hc
      obtain ⟨lc, hchc, hvpc, hndc, hsubc⟩ := inv.chain_of_vis current hcur_vis
      refine ⟨c :: lc, ?_, ?_, ?_, ?_⟩
      · exact Chain.cons (hlook_new c hcnew)
          (chain_stable hchc fun y hy => hstable y (hsubc y hy))
      · rw [List.reverse_cons]
        exact ValidPath.snoc hvpc (hprops c hcnew).2.2.2
      · exact List.Nodup.cons (fun hmem' => hdisj c hcnew (hsubc c hmem')) hndc
      · intro x hx
        rcases List.mem_cons.1 hx with rfl | hx
        · exact List.mem_append.2 (Or.inl hc)
        · exact List.mem_append.2 (Or.inr (hsubc x hx))
    · obtain ⟨l, hch, hvp, hnd, hsub⟩ := inv.chain_of_vis c hc
      refine ⟨l, chain_stable hch fun y hy => hstable y (hsub y hy), hvp, hnd, ?_⟩
      intro x hx
      exact List.mem_append.2 (Or.inr (hsub x hx))
  · intro c hc hq d hd hib hfree
    have hq' : c ∉ rest ∧ c ∉ new := by
      constructor
      · intro h; exact hq ((hmem rest new c).2 (Or.inl h))
      · intro h; exact hq ((hmem rest new c).2 (Or.inr h))
    rcases List.mem_append.1 hc with hc | hc
    · exact absurd (List.mem_reverse.1 hc) hq'.2
    · by_cases hcur : c = current
      · subst hcur
        rcases hcov d hd hib hfree with h | h
        · exact List.mem_append.2 (Or.inl (List.mem_reverse.2 h))
        · exact List.mem_append.2 (Or.inr h)
      · have : c ∉ current :: rest := by
          intro h
          rcases List.mem_cons.1 h with h | h
          · exact hcur h
          · exact hq'.1 h
        exact List.mem_append.2 (Or.inr (inv.expanded c hc this d hd hib hfree))
  · intro h
    rcases List.mem_append.1 h with h | h
    · exact (hmem rest new endc).2 (Or.inr (List.mem_reverse.1 h))
    · rcases List.mem_cons.1 (inv.end_in_queue h) with h' | h'
      · exact absurd h'.symm hne
      · exact (hmem rest new endc).2 (Or.inl h')

/-! ## Separation: every path to an unvisited cell crosses the frontier -/

theorem path_hits_queue {grid : Grid} {start endc : Cell} {queue visited : List Cell}
    {parent : List (Cell × Option Cell)}
    (inv : Inv grid start endc queue visited parent) :
    ∀ {c : Cell} {p : List Cell}, ValidPath grid start c p → c ∉ visited →
      ∃ q p₁ p₂, q ∈ queue ∧ p = p₁ ++ p₂ ∧ ValidPath grid start q p₁ ∧ p₂ ≠ [] := by
  intro c p hp
  induction hp with
  | single => intro hnv; exact absurd inv.start_vis hnv
  | @snoc c₀ c' p₀ hp₀ hs ih =>
    intro hnv
    by_cases h₀ : c₀ ∈ visited
    · by_cases hq : c₀ ∈ queue
      · exact ⟨c₀, p₀, [c'], hq, rfl, hp₀, by simp⟩
      · obtain ⟨d, hd, rfl⟩ := hs.1
        exact absurd (inv.expanded c₀ h₀ hq d hd hs.2.1 hs.2.2) hnv
    · obtain ⟨q, p₁, p₂, hq, heq, hvp, hne⟩ := ih h₀
      exact ⟨q, p₁, p₂ ++ [c'], hq, by rw [heq, List.append_assoc], hvp, by simp⟩

theorem reachable_mem_of_queue_nil {grid : Grid} {start endc : Cell} {visited : List Cell}
    {parent : List (Cell × Option Cell)}
    (inv : Inv grid start endc [] visited parent) {c : Cell} (h : Reachable grid start c) :
    c ∈ visited := by
  obtain ⟨p, hp⟩ := h
  by_contra hnv
  obtain ⟨q, p₁, p₂, hq, -⟩ := path_hits_queue inv hp hnv
  exact absurd hq (List.not_mem_nil q)

/-! ## The loop measure -/

theorem unvisitedCount_cons {grid : Grid} {visited : List Cell} {c : Cell}
    (hib : inBounds grid c = true) (hnv : c ∉ visited) :
    unvisitedCount grid (c :: visited) + 1 = unvisitedCount grid visited := by
  obtain ⟨h1, h2, h3, h4⟩ := inBounds_iff.1 hib
  have hc1 : ((c.1.toNat : Int)) = c.1 := Int.toNat_of_nonneg h1
  have hc2 : ((c.2.toNat : Int)) = c.2 := Int.toNat_of_nonneg h3
  have hcpair : (((c.1.toNat : Int)), ((c.2.toNat : Int))) = c := by
    rw [hc1, hc2]
  have hmem : (c.1.toNat, c.2.toNat) ∈
      ((Finset.range (rows grid)) ×ˢ (Finset.range (cols grid))).filter
        (fun p => ((p.1 : Int), (p.2 : Int)) ∉ visited) := by
    refine Finset.mem_filter.2 ⟨Finset.mem_product.2 ⟨?_, ?_⟩, ?_⟩
    · exact Finset.mem_range.2 (by omega)
    · exact Finset.mem_range.2 (by omega)
    · intro hcon
      apply hnv
      rwa [hcpair] at hcon
  have hset : ((Finset.range (rows grid)) ×ˢ (Finset.range (cols grid))).filter
        (fun p => ((p.1 : Int), (p.2 : Int)) ∉ c :: visited) =
      (((Finset.range (rows grid)) ×ˢ (Finset.range (cols grid))).filter
        (fun p => ((p.1 : Int), (p.2 : Int)) ∉ visited)).erase (c.1.toNat, c.2.toNat) := by
    ext p
    simp only [Finset.mem_filter, Finset.mem_erase, List.mem_cons, not_or]
    constructor
    · rintro ⟨hin, hne, hnvis⟩
      refine ⟨?_, hin, hnvis⟩
      intro hpc
      apply hne
      rw [hpc, hcpair]
    · rintro ⟨hpc, hin, hnvis⟩
      refine ⟨hin, ?_, hnvis⟩
      intro h
      apply hpc
      have e1 : (p.1 : Int) = c.1 := congrArg Prod.fst h
      have e2 : (p.2 : Int) = c.2 := congrArg Prod.snd h
      have f1 : p.1 = c.1.toNat := by omega
      have f2 : p.2 = c.2.toNat := by omega
      cases p
      simp_all
  unfold unvisitedCount
  rw [hset, Finset.card_erase_of_mem hmem]
  have hpos : 0 < (((Finset.range (rows grid)) ×ˢ (Finset.range (cols grid))).filter
      (fun p => ((p.1 : Int), (p.2 : Int)) ∉ visited)).card :=
    Finset.card_pos.2 ⟨_, hmem⟩
  omega

theorem unvisitedCount_append (grid : Grid) :
    ∀ (new visited : List Cell), (∀ c ∈ new, inBounds grid c = true ∧ c ∉ visited) →
      new.Nodup →
      unvisitedCount grid (new.reverse ++ visited) + new.length = unvisitedCount grid visited := by
  intro new
  induction new with
  | nil => intro visited _ _; simp
  | cons a t ih =>
    intro visited h hnd
    have hrw : (a :: t).reverse ++ visited = t.reverse ++ (a :: visited) := by simp
    rw [hrw]
    have ha := h a (by simp)
    have ht : ∀ c ∈ t, inBounds grid c = true ∧ c ∉ a :: visited := by
      intro c hc
      refine ⟨(h c (by simp [hc])).1, ?_⟩
      intro hmem'
      rcases List.mem_cons.1 hmem' with rfl | hmem'
      · exact (List.nodup_cons.1 hnd).1 hc
      · exact (h c (by simp [hc])).2 hmem'
    have h1 := ih (a :: visited) ht (List.nodup_cons.1 hnd).2
    have h2 := unvisitedCount_cons ha.1 ha.2
    simp only [List.length_cons]
    omega

theorem unvisitedCount_le (grid : Grid) (visited : List Cell) :
    unvisitedCount grid visited ≤ rows grid * cols grid := by
  calc unvisitedCount grid visited
      ≤ ((Finset.range (rows grid)) ×ˢ (Finset.range (cols grid))).card :=
        Finset.card_filter_le _ _
    _ = rows grid * cols grid := by simp

/-! ## Initial states -/

theorem inv_init (grid : Grid) (start endc : Cell) :
    Inv grid start endc [start] [start] [(start, none)] := by
  refine ⟨by simp, fun c hc => hc, by simp, by simp, ?_, rfl, ?_, ?_, fun h => h⟩
  · intro c hc
    left
    simpa using hc
  · intro c hc
    have : c = start := by simpa using hc
    subst this
    exact ⟨[c], Chain.base (by simp [lookup]), by simpa using ValidPath.single, by simp, by simp⟩
  · intro c hc hq
    exact absurd hc hq

theorem bfsInv_init (grid : Grid) (start endc : Cell) :
    BfsInv grid start endc [start] [start] [(start, none)] := by
  refine ⟨inv_init grid start endc, ?_, ?_⟩
  · intro c hc
    have : c = start := by simpa using hc
    subst this
    exact ⟨0, [c], edgeDist_start grid c, Chain.base (by simp [lookup]), rfl⟩
  · refine ⟨[0], ?_, by simp, by simp⟩
    exact List.Forall₂.cons (edgeDist_start grid start) List.Forall₂.nil

/-! ## Soundness of the search loop -/

theorem reconstructPath_spec {grid : Grid} {start endc : Cell} {queue visited : List Cell}
    {parent : List (Cell × Option Cell)}
    (inv : Inv grid start endc queue visited parent) {c : Cell} (hc : c ∈ visited) :
    ValidPath grid start c (reconstructPath parent c) ∧
      (reconstructPath parent c).Nodup ∧ reconstructPath parent c ≠ [] := by
  obtain ⟨l, hch, hvp, hnd, hsub⟩ := inv.chain_of_vis c hc
  have hlen : l.length ≤ parent.length := by
    rw [inv.parent_len]
    exact (List.subperm_of_subset hnd fun x hx => hsub x hx).length_le
  have hbt : backtrack parent parent.length c = l := backtrack_of_chain hch parent.length hlen
  unfold reconstructPath
  rw [hbt]
  refine ⟨hvp, List.nodup_reverse.2 hnd, ?_⟩
  obtain ⟨t, rfl⟩ := chain_shape hch
  simp

theorem pushBFS_mem (q ns : List Cell) (c : Cell) : c ∈ pushBFS q ns ↔ c ∈ q ∨ c ∈ ns := by
  simp [pushBFS]

theorem pushBFS_nodup (q ns : List Cell) (hq : q.Nodup) (hns : ns.Nodup)
    (hdisj : ∀ a ∈ ns, a ∉ q) : (pushBFS q ns).Nodup :=
  List.Nodup.append hq hns fun a ha ha' => hdisj a ha' ha

theorem pushBFS_length (q ns : List Cell) : (pushBFS q ns).length = q.length + ns.length := by
  simp [pushBFS]

theorem pushDFS_mem (q ns : List Cell) (c : Cell) : c ∈ pushDFS q ns ↔ c ∈ q ∨ c ∈ ns := by
  simp [pushDFS, or_comm]

theorem pushDFS_nodup (q ns : List Cell) (hq : q.Nodup) (hns : ns.Nodup)
    (hdisj : ∀ a ∈ ns, a ∉ q) : (pushDFS q ns).Nodup :=
  List.Nodup.append (List.nodup_reverse.2 hns) hq
    fun a ha ha' => hdisj a (List.mem_reverse.1 ha) ha'

theorem pushDFS_length (q ns : List Cell) : (pushDFS q ns).length = q.length + ns.length := by
  simp [pushDFS, Nat.add_comm]

theorem searchLoop_nil_sound (push : List Cell → List Cell → List Cell) {grid : Grid}
    {start endc : Cell} {visited : List Cell} {parent : List (Cell × Option Cell)} (fuel : Nat)
    (inv : Inv grid start endc [] visited parent) :
    (searchLoop push grid endc fuel [] visited parent = [] → ¬Reachable grid start endc) ∧
    (searchLoop push grid endc fuel [] visited parent ≠ [] →
      ValidPath grid start endc (searchLoop push grid endc fuel [] visited parent) ∧
      (searchLoop push grid endc fuel [] visited parent).Nodup) := by
  have hres : searchLoop push grid endc fuel [] visited parent = [] := by
    cases fuel <;> rfl
  rw [hres]
  exact ⟨fun _ hreach => absurd (inv.end_in_queue (reachable_mem_of_queue_nil inv hreach))
      (List.not_mem_nil endc),
    fun h => absurd rfl h⟩

theorem searchLoop_sound (push : List Cell → List Cell → List Cell)
    (hmem : ∀ q ns c, c ∈ push q ns ↔ c ∈ q ∨ c ∈ ns)
    (hpnd : ∀ q ns, q.Nodup → ns.Nodup → (∀ a ∈ ns, a ∉ q) → (push q ns).Nodup)
    (hplen : ∀ q ns, (push q ns).length = q.length + ns.length)
    {grid : Grid} {start endc : Cell} :
    ∀ (fuel : Nat) (queue visited : List Cell) (parent : List (Cell × Option Cell)),
      Inv grid start endc queue visited parent →
      queue.length + unvisitedCount grid visited ≤ fuel →
      (searchLoop push grid endc fuel queue visited parent = [] →
        ¬Reachable grid start endc) ∧
      (searchLoop push grid endc fuel queue visited parent ≠ [] →
        ValidPath grid start endc (searchLoop push grid endc fuel queue visited parent) ∧
        (searchLoop push grid endc fuel queue visited parent).Nodup) := by
  intro fuel
  induction fuel with
  | zero =>
    intro queue visited parent inv hfuel
    cases queue with
    | nil => exact searchLoop_nil_sound push 0 inv
    | cons a t =>
      exfalso
      simp only [List.length_cons] at hfuel
      omega
  | succ fuel ih =>
    intro queue visited parent inv hfuel
    cases queue with
    | nil => exact searchLoop_nil_sound push (fuel + 1) inv
    | cons current rest =>
      by_cases hend : current = endc
      · subst hend
        have hres : searchLoop push grid current (fuel + 1) (current :: rest) visited parent =
            reconstructPath parent current := by
          show (if current = current then reconstructPath parent current
            else searchLoop push grid current fuel
              (push rest (expand grid current visited parent).1)
              (expand grid current visited parent).2.1
              (expand grid current visited parent).2.2) = reconstructPath parent current
          rw [if_pos rfl]
        obtain ⟨hvp, hnd, hne⟩ := reconstructPath_spec inv (inv.queue_sub current (by simp))
        rw [hres]
        exact ⟨fun h => absurd h hne, fun _ => ⟨hvp, hnd⟩⟩
      · obtain ⟨new, hexp, hprops, hndnew, hcov⟩ := expand_spec grid current visited parent
        have hres : searchLoop push grid endc (fuel + 1) (current :: rest) visited parent =
            searchLoop push grid endc fuel (push rest new) (new.reverse ++ visited)
              ((new.map fun c => (c, some current)).reverse ++ parent) := by
          show (if current = endc then reconstructPath parent current
            else searchLoop push grid endc fuel
              (push rest (expand grid current visited parent).1)
              (expand grid current visited parent).2.1
              (expand grid current visited parent).2.2) = _
          rw [if_neg hend, hexp]
        have inv' := inv_preserved inv hend push hmem hpnd
          (fun c hc => hprops c hc) hndnew hcov
        have hfuel' : (push rest new).length +
            unvisitedCount grid (new.reverse ++ visited) ≤ fuel := by
          rw [hplen]
          have hcnt := unvisitedCount_append grid new visited
            (fun c hc => ⟨(hprops c hc).1, (hprops c hc).2.2.1⟩) hndnew
          simp only [List.length_cons] at hfuel
          omega
        rw [hres]
        exact ih (push rest new) _ _ inv' hfuel'

/-! ## Optimality of breadth-first search -/

theorem forall₂_append {R : Cell → Nat → Prop} {l₁ u₁ : List Cell} {l₂ u₂ : List Nat}
    (h₁ : List.Forall₂ R l₁ l₂) (h₂ : List.Forall₂ R u₁ u₂) :
    List.Forall₂ R (l₁ ++ u₁) (l₂ ++ u₂) := by
  induction h₁ with
  | nil => simpa using h₂
  | cons hr ht ih => exact List.Forall₂.cons hr ih

theorem sorted_replicate (n m : Nat) : (List.replicate n m).Sorted (· ≤ ·) := by
  induction n with
  | zero => simp
  | succ n ih =>
    rw [List.replicate_succ]
    exact List.sorted_cons.2 ⟨fun b hb => le_of_eq (List.eq_of_mem_replicate hb).symm, ih⟩

/-- A cell first discovered while expanding `current` lies exactly one level
beyond `current`: any path to it must leave the frontier, whose levels are all
at least that of `current`. -/
theorem new_cell_dist {grid : Grid} {start endc current : Cell} {rest visited : List Cell}
    {parent : List (Cell × Option Cell)} {k : Nat} {ds' : List Nat}
    (inv : BfsInv grid start endc (current :: rest) visited parent)
    (hds : List.Forall₂ (fun c n => EdgeDist grid start c n) (current :: rest) (k :: ds'))
    (hsorted : (k :: ds').Sorted (· ≤ ·))
    {c : Cell} (hnv : c ∉ visited) (hstep : step grid current c) :
    EdgeDist grid start c (k + 1) := by
  have hcur_vis : current ∈ visited := inv.queue_sub current (by simp)
  have hcurd : EdgeDist grid start current k := by
    cases hds with
    | cons hr _ => exact hr
  obtain ⟨n, l, hd, hch, hlen⟩ := inv.dist_chain current hcur_vis
  obtain ⟨l₀, hch₀, hvp₀, hnd₀, hsub₀⟩ := inv.chain_of_vis current hcur_vis
  obtain rfl := chain_unique hch hch₀
  have hnk : n = k := edgeDist_unique hd hcurd
  constructor
  · refine ⟨l.reverse ++ [c], ValidPath.snoc hvp₀ hstep, ?_⟩
    simp [hlen, hnk]
  · intro p hp
    obtain ⟨q, p₁, p₂, hq, rfl, hvp₁, hne₂⟩ := path_hits_queue inv.toInv hp hnv
    obtain ⟨m, hm, hqd⟩ := forall₂_mem_left hds hq
    have hkm : k ≤ m := by
      rcases List.mem_cons.1 hm with rfl | hm
      · exact le_refl m
      · exact List.rel_of_sorted_cons hsorted m hm
    have h₁ : m + 1 ≤ p₁.length := hqd.2 p₁ hvp₁
    have h₂ : 1 ≤ p₂.length := by
      cases p₂ with
      | nil => exact absurd rfl hne₂
      | cons a t => simp
    rw [List.length_append]
    omega

theorem bfsInv_preserved {grid : Grid} {start endc current : Cell}
    {rest visited new : List Cell} {parent : List (Cell × Option Cell)}
    (inv : BfsInv grid start endc (current :: rest) visited parent) (hne : current ≠ endc)
    (hprops : ∀ c ∈ new, inBounds grid c = true ∧ freeCell grid c = true ∧ c ∉ visited ∧
      step grid current c)
    (hnodup : new.Nodup)
    (hcov : ∀ d ∈ directions, inBounds grid (current.1 + d.1, current.2 + d.2) = true →
      freeCell grid (current.1 + d.1, current.2 + d.2) = true →
      (current.1 + d.1, current.2 + d.2) ∈ new ∨ (current.1 + d.1, current.2 + d.2) ∈ visited) :
    BfsInv grid start endc (pushBFS rest new) (new.reverse ++ visited)
      ((new.map fun c => (c, some current)).reverse ++ parent) := by
  have hcur_vis : current ∈ visited := inv.queue_sub current (by simp)
  have hdisj : ∀ a ∈ new, a ∉ visited := fun a ha => (hprops a ha).2.2.1
  obtain ⟨ds, hf2, hsorted, hspread⟩ := inv.queue_dists
  obtain ⟨k, ds', rfl⟩ : ∃ k ds', ds = k :: ds' := by
    cases hf2 with
    | cons _ _ => exact ⟨_, _, rfl⟩
  have hnewd : ∀ c ∈ new, EdgeDist grid start c (k + 1) := fun c hc =>
    new_cell_dist inv hf2 hsorted (hprops c hc).2.2.1 (hprops c hc).2.2.2
  have htl : List.Forall₂ (fun c n => EdgeDist grid start c n) rest ds' := by
    cases hf2 with
    | cons _ h => exact h
  have hmapfst : ∀ (l : List Cell), (l.map fun c => (c, some current)).map Prod.fst = l := by
    intro l
    induction l with
    | nil => rfl
    | cons a t ih => simp only [List.map_cons, ih]
  have hstable : ∀ x ∈ visited,
      lookup ((new.map fun c => (c, some current)).reverse ++ parent) x = lookup parent x := by
    intro x hx
    refine lookup_append_right ?_ parent
    rw [List.map_reverse, hmapfst]
    intro hmem'
    exact hdisj x (List.mem_reverse.1 hmem') hx
  have hlook_new : ∀ x ∈ new,
      lookup ((new.map fun c => (c, some current)).reverse ++ parent) x =
        some (some current) := by
    intro x hx
    have h₁ : lookup ((new.map fun c => (c, some current)).reverse) x = some (some current) := by
      have h₂ := lookup_map_value (fun _ => some current) new.reverse x (List.mem_reverse.2 hx)
      rw [List.map_reverse] at h₂
      exact h₂
    rw [lookup_append, h₁]
  refine ⟨inv_preserved inv.toInv hne pushBFS pushBFS_mem pushBFS_nodup hprops hnodup hcov,
    ?_, ?_⟩
  · intro c hc
    rcases List.mem_append.1 hc with hc | hc
    · -- newly discovered: chain through `current`, one level deeper
      have hcnew := List.mem_reverse.1 hc
      obtain ⟨n, l, hd, hch, hlen⟩ := inv.dist_chain current hcur_vis
      obtain ⟨l₀, hch₀, hvp₀, hnd₀, hsub₀⟩ := inv.chain_of_vis current hcur_vis
      obtain rfl := chain_unique hch hch₀
      have hcurd : EdgeDist grid start current k := by
        cases hf2 with
        | cons hr _ => exact hr
      have hnk : n = k := edgeDist_unique hd hcurd
      refine ⟨k + 1, c :: l, hnewd c hcnew, ?_, by simp [hlen, hnk]⟩
      exact Chain.cons (hlook_new c hcnew)
        (chain_stable hch fun y hy => hstable y (hsub₀ y hy))
    · obtain ⟨n, l, hd, hch, hlen⟩ := inv.dist_chain c hc
      obtain ⟨l₀, hch₀, hvp₀, hnd₀, hsub₀⟩ := inv.chain_of_vis c hc
      obtain rfl := chain_unique hch hch₀
      exact ⟨n, l, hd, chain_stable hch fun y hy => hstable y (hsub₀ y hy), hlen⟩
  · refine ⟨ds' ++ List.replicate new.length (k + 1), ?_, ?_, ?_⟩
    · have hrepl := forall₂_replicate hnewd
      exact forall₂_append htl hrepl
    · rw [List.Sorted, List.pairwise_append]
      refine ⟨hsorted.of_cons, sorted_replicate _ _, ?_⟩
      intro a ha b hb
      obtain rfl := List.eq_of_mem_replicate hb
      exact hspread a (by simp [ha]) k (by simp)
    · intro x hx y hy
      rcases List.mem_append.1 hx with hx | hx
      · rcases List.mem_append.1 hy with hy | hy
        · exact hspread x (by simp [hx]) y (by simp [hy])
        · obtain rfl := List.eq_of_mem_replicate hy
          have := hspread x (by simp [hx]) k (by simp)
          omega
      · obtain rfl := List.eq_of_mem_replicate hx
        rcases List.mem_append.1 hy with hy | hy
        · have := List.rel_of_sorted_cons hsorted y hy
          omega
        · obtain rfl := List.eq_of_mem_replicate hy
          omega

theorem searchLoop_bfs_min {grid : Grid} {start endc : Cell} :
    ∀ (fuel : Nat) (queue visited : List Cell) (parent : List (Cell × Option Cell)),
      BfsInv grid start endc queue visited parent →
      searchLoop pushBFS grid endc fuel queue visited parent ≠ [] →
      ∀ p, ValidPath grid start endc p →
        (searchLoop pushBFS grid endc fuel queue visited parent).length ≤ p.length := by
  intro fuel
  induction fuel with
  | zero => intro queue visited parent inv hne p hp; exact absurd rfl hne
  | succ fuel ih =>
    intro queue visited parent inv hne p hp
    cases queue with
    | nil => exact absurd rfl hne
    | cons current rest =>
      by_cases hend : current = endc
      · subst hend
        have hres : searchLoop pushBFS grid current (fuel + 1) (current :: rest)
            visited parent = reconstructPath parent current := by
          show (if current = current then reconstructPath parent current
            else searchLoop pushBFS grid current fuel
              (pushBFS rest (expand grid current visited parent).1)
              (expand grid current visited parent).2.1
              (expand grid current visited parent).2.2) = reconstructPath parent current
          rw [if_pos rfl]
        rw [hres]
        have hcur_vis : current ∈ visited := inv.queue_sub current (by simp)
        obtain ⟨n, l, hd, hch, hlen⟩ := inv.dist_chain current hcur_vis
        obtain ⟨l₀, hch₀, hvp₀, hnd₀, hsub₀⟩ := inv.chain_of_vis current hcur_vis
        obtain rfl := chain_unique hch hch₀
        have hblen : l.length ≤ parent.length := by
          rw [inv.parent_len]
          exact (List.subperm_of_subset hnd₀ fun x hx => hsub₀ x hx).length_le
        unfold reconstructPath
        rw [backtrack_of_chain hch parent.length hblen, List.length_reverse, hlen]
        exact hd.2 p hp
      · obtain ⟨new, hexp, hprops, hndnew, hcov⟩ := expand_spec grid current visited parent
        have hres : searchLoop pushBFS grid endc (fuel + 1) (current :: rest) visited parent =
            searchLoop pushBFS grid endc fuel (pushBFS rest new) (new.reverse ++ visited)
              ((new.map fun c => (c, some current)).reverse ++ parent) := by
          show (if current = endc then reconstructPath parent current
            else searchLoop pushBFS grid endc fuel
              (pushBFS rest (expand grid current visited parent).1)
              (expand grid current visited parent).2.1
              (expand grid current visited parent).2.2) = _
          rw [if_neg hend, hexp]
        rw [hres] at hne ⊢
        exact ih (pushBFS rest new) _ _
          (bfsInv_preserved inv hend hprops hndnew hcov) hne p hp

/-! ## Fuel does not matter once it covers the measure -/

theorem searchLoop_fuel_succ (push : List Cell → List Cell → List Cell)
    (hplen : ∀ q ns, (push q ns).length = q.length + ns.length)
    {grid : Grid} {endc : Cell} :
    ∀ (fuel : Nat) (queue visited : List Cell) (parent : List (Cell × Option Cell)),
      queue.length + unvisitedCount grid visited ≤ fuel →
      searchLoop push grid endc (fuel + 1) queue visited parent =
        searchLoop push grid endc fuel queue visited parent := by
  intro fuel
  induction fuel with
  | zero =>
    intro queue visited parent hfuel
    cases queue with
    | nil => rfl
    | cons a t =>
      exfalso
      simp only [List.length_cons] at hfuel
      omega
  | succ fuel ih =>
    intro queue visited parent hfuel
    cases queue with
    | nil => rfl
    | cons current rest =>
      show (if current = endc then reconstructPath parent current
          else searchLoop push grid endc (fuel + 1)
            (push rest (expand grid current visited parent).1)
            (expand grid current visited parent).2.1
            (expand grid current visited parent).2.2) =
        (if current = endc then reconstructPath parent current
          else searchLoop push grid endc fuel
            (push rest (expand grid current visited parent).1)
            (expand grid current visited parent).2.1
            (expand grid current visited parent).2.2)
      by_cases hend : current = endc
      · rw [if_pos hend, if_pos hend]
      · rw [if_neg hend, if_neg hend]
        obtain ⟨new, hexp, hprops, hndnew, hcov⟩ := expand_spec grid current visited parent
        rw [hexp]
        have hcnt := unvisitedCount_append grid new visited
          (fun c hc => ⟨(hprops c hc).1, (hprops c hc).2.2.1⟩) hndnew
        refine ih _ _ _ ?_
        dsimp only
        rw [hplen]
        simp only [List.length_cons] at hfuel
        omega

theorem searchLoop_fuel_ge (push : List Cell → List Cell → List Cell)
    (hplen : ∀ q ns, (push q ns).length = q.length + ns.length)
    {grid : Grid} {endc : Cell} :
    ∀ (k fuel : Nat) (queue visited : List Cell) (parent : List (Cell × Option Cell)),
      queue.length + unvisitedCount grid visited ≤ fuel →
      searchLoop push grid endc (fuel + k) queue visited parent =
        searchLoop push grid endc fuel queue visited parent := by
  intro k
  induction k with
  | zero => intro fuel queue visited parent _; rfl
  | succ k ih =>
    intro fuel queue visited parent h
    have hrw : fuel + (k + 1) = (fuel + k) + 1 := by omega
    rw [hrw, searchLoop_fuel_succ push hplen (fuel + k) queue visited parent (by omega)]
    exact ih fuel queue visited parent h

/-! ## Top-level consequences for bfs and dfs -/

theorem init_fuel_le (grid : Grid) (start : Cell) :
    [start].length + unvisitedCount grid [start] ≤ searchFuel grid := by
  have h := unvisitedCount_le grid [start]
  simp only [List.length_cons, List.length_nil, searchFuel]
  omega

theorem bfs_spec (grid : Grid) (start endc : Cell) :
    (bfs start endc grid = [] ↔ ¬Reachable grid start endc) ∧
    (bfs start endc grid ≠ [] →
      ValidPath grid start endc (bfs start endc grid) ∧ (bfs start endc grid).Nodup) := by
  have h := searchLoop_sound pushBFS pushBFS_mem pushBFS_nodup pushBFS_length
    (searchFuel grid) [start] [start] [(start, none)] (inv_init grid start endc)
    (init_fuel_le grid start)
  refine ⟨⟨h.1, ?_⟩, h.2⟩
  intro hnr
  by_contra hne
  obtain ⟨hvp, -⟩ := h.2 hne
  exact hnr ⟨_, hvp⟩

theorem dfs_spec (grid : Grid) (start endc : Cell) :
    (dfs start endc grid = [] ↔ ¬Reachable grid start endc) ∧
    (dfs start endc grid ≠ [] →
      ValidPath grid start endc (dfs start endc grid) ∧ (dfs start endc grid).Nodup) := by
  have h := searchLoop_sound pushDFS pushDFS_mem pushDFS_nodup pushDFS_length
    (searchFuel grid) [start] [start] [(start, none)] (inv_init grid start endc)
    (init_fuel_le grid start)
  refine ⟨⟨h.1, ?_⟩, h.2⟩
  intro hnr
  by_contra hne
  obtain ⟨hvp, -⟩ := h.2 hne
  exact hnr ⟨_, hvp⟩

theorem bfs_min (grid : Grid) (start endc : Cell) (hne : bfs start endc grid ≠ [])
    {p : List Cell} (hp : ValidPath grid start endc p) :
    (bfs start endc grid).length ≤ p.length :=
  searchLoop_bfs_min (searchFuel grid) [start] [start] [(start, none)]
    (bfsInv_init grid start endc) hne p hp

theorem search_self_eq (grid : Grid) (c : Cell) : bfs c c grid = [c] ∧ dfs c c grid = [c] := by
  constructor
  · show (if c = c then reconstructPath [(c, none)] c
      else searchLoop pushBFS grid c (rows grid * cols grid)
        (pushBFS [] (expand grid c [c] [(c, none)]).1)
        (expand grid c [c] [(c, none)]).2.1
        (expand grid c [c] [(c, none)]).2.2) = [c]
    rw [if_pos rfl]
    show (backtrack [(c, none)] 1 c).reverse = [c]
    simp [backtrack, lookup]
  · show (if c = c then reconstructPath [(c, none)] c
      else searchLoop pushDFS grid c (rows grid * cols grid)
        (pushDFS [] (expand grid c [c] [(c, none)]).1)
        (expand grid c [c] [(c, none)]).2.1
        (expand grid c [c] [(c, none)]).2.2) = [c]
    rw [if_pos rfl]
    show (backtrack [(c, none)] 1 c).reverse = [c]
    simp [backtrack, lookup]

theorem not_reachable_of_blocked {grid : Grid} {start endc : Cell}
    (hb : freeCell grid endc = false) (hne : start ≠ endc) :
    ¬Reachable grid start endc := by
  rintro ⟨p, hp⟩
  rcases validPath_dest hp with h | h
  · exact hne h.symm
  · rw [h.2] at hb
    cases hb

/-! ## Manhattan distance on obstacle-free grids -/

theorem freeCell_of_all_zero {grid : Grid}
    (hrect : ∀ row ∈ grid, row.length = cols grid)
    (hzero : ∀ row ∈ grid, ∀ v ∈ row, v = 0) {c : Cell}
    (hib : inBounds grid c = true) : freeCell grid c = true := by
  obtain ⟨h1, h2, h3, h4⟩ := inBounds_iff.1 hib
  have hrlt : c.1.toNat < grid.length := by
    unfold rows at h2
    omega
  have hrow_eq : grid.getD c.1.toNat [] = grid[c.1.toNat] := List.getD_eq_getElem grid [] hrlt
  have hrow_mem : grid[c.1.toNat] ∈ grid := List.getElem_mem hrlt
  have hclt : c.2.toNat < (grid[c.1.toNat]).length := by
    rw [hrect _ hrow_mem]
    omega
  have hval : (grid[c.1.toNat]).getD c.2.toNat 1 = (grid[c.1.toNat])[c.2.toNat] :=
    List.getD_eq_getElem _ 1 hclt
  have hzval : (grid[c.1.toNat])[c.2.toNat] = 0 :=
    hzero _ hrow_mem _ (List.getElem_mem hclt)
  unfold freeCell cellAt
  rw [hrow_eq, hval, hzval]
  rfl

theorem manhattan_step {grid : Grid} (start : Cell) {a b : Cell} (hs : step grid a b) :
    manhattan start b ≤ manhattan start a + 1 := by
  obtain ⟨d, hd, rfl⟩ := hs.1
  have hd' : d = ((-1 : Int), (0 : Int)) ∨ d = (1, 0) ∨ d = (0, -1) ∨ d = (0, 1) := by
    simpa [directions] using hd
  unfold manhattan
  rcases hd' with rfl | rfl | rfl | rfl <;> dsimp only <;> omega

theorem manhattan_le_of_validPath {grid : Grid} {start c : Cell} {p : List Cell}
    (h : ValidPath grid start c p) : manhattan start c + 1 ≤ p.length := by
  induction h with
  | single => simp [manhattan]
  | @snoc c₀ c' p₀ hp hs ih =>
    have hstep := manhattan_step start hs
    simp only [List.length_append, List.length_cons, List.length_nil]
    omega

theorem exists_manhattan_path (grid : Grid)
    (hfree : ∀ c : Cell, inBounds grid c = true → freeCell grid c = true) (start : Cell)
    (hs : inBounds grid start = true) :
    ∀ (n : Nat) (endc : Cell), inBounds grid endc = true → manhattan start endc = n →
      ∃ p, ValidPath grid start endc p ∧ p.length = n + 1 := by
  obtain ⟨hs1, hs2, hs3, hs4⟩ := inBounds_iff.1 hs
  intro n
  induction n with
  | zero =>
    intro endc hib hman
    have heq : start = endc := by
      unfold manhattan at hman
      have e1 : start.1 = endc.1 := by omega
      have e2 : start.2 = endc.2 := by omega
      rw [← @Prod.mk.eta _ _ start, ← @Prod.mk.eta _ _ endc, e1, e2]
    subst heq
    exact ⟨[start], ValidPath.single, rfl⟩
  | succ n ih =>
    intro endc hib hman
    obtain ⟨he1, he2, he3, he4⟩ := inBounds_iff.1 hib
    unfold manhattan at hman
    by_cases h1 : start.1 < endc.1
    · have hprev : inBounds grid (endc.1 - 1, endc.2) = true :=
        inBounds_iff.2 ⟨(by omega : (0 : Int) ≤ endc.1 - 1),
          (by omega : endc.1 - 1 < (rows grid : Int)), he3, he4⟩
      have hman' : manhattan start (endc.1 - 1, endc.2) = n := by
        unfold manhattan
        dsimp only
        omega
      obtain ⟨p, hp, hplen⟩ := ih (endc.1 - 1, endc.2) hprev hman'
      refine ⟨p ++ [endc], ValidPath.snoc hp ?_, by simp [hplen]⟩
      refine ⟨⟨(1, 0), by decide, ?_⟩, hib, hfree endc hib⟩
      show endc = (endc.1 - 1 + 1, endc.2 + 0)
      have e1 : endc.1 - 1 + 1 = endc.1 := by omega
      have e2 : endc.2 + 0 = endc.2 := by omega
      rw [e1, e2]
    · by_cases h2 : endc.1 < start.1
      · have hprev : inBounds grid (endc.1 + 1, endc.2) = true :=
          inBounds_iff.2 ⟨(by omega : (0 : Int) ≤ endc.1 + 1),
            (by omega : endc.1 + 1 < (rows grid : Int)), he3, he4⟩
        have hman' : manhattan start (endc.1 + 1, endc.2) = n := by
          unfold manhattan
          dsimp only
          omega
        obtain ⟨p, hp, hplen⟩ := ih (endc.1 + 1, endc.2) hprev hman'
        refine ⟨p ++ [endc], ValidPath.snoc hp ?_, by simp [hplen]⟩
        refine ⟨⟨(-1, 0), by decide, ?_⟩, hib, hfree endc hib⟩
        show endc = (endc.1 + 1 + -1, endc.2 + 0)
        have e1 : endc.1 + 1 + -1 = endc.1 := by omega
        have e2 : endc.2 + 0 = endc.2 := by omega
        rw [e1, e2]
      · by_cases h3 : start.2 < endc.2
        · have hprev : inBounds grid (endc.1, endc.2 - 1) = true :=
            inBounds_iff.2 ⟨he1, he2, (by omega : (0 : Int) ≤ endc.2 - 1),
              (by omega : endc.2 - 1 < (cols grid : Int))⟩
          have hman' : manhattan start (endc.1, endc.2 - 1) = n := by
            unfold manhattan
            dsimp only
            omega
          obtain ⟨p, hp, hplen⟩ := ih (endc.1, endc.2 - 1) hprev hman'
          refine ⟨p ++ [endc], ValidPath.snoc hp ?_, by simp [hplen]⟩
          refine ⟨⟨(0, 1), by decide, ?_⟩, hib, hfree endc hib⟩
          show endc = (endc.1 + 0, endc.2 - 1 + 1)
          have e1 : endc.1 + 0 = endc.1 := by omega
          have e2 : endc.2 - 1 + 1 = endc.2 := by omega
          rw [e1, e2]
        · have h4 : endc.2 < start.2 := by omega
          have hprev : inBounds grid (endc.1, endc.2 + 1) = true :=
            inBounds_iff.2 ⟨he1, he2, (by omega : (0 : Int) ≤ endc.2 + 1),
              (by omega : endc.2 + 1 < (cols grid : Int))⟩
          have hman' : manhattan start (endc.1, endc.2 + 1) = n := by
            unfold manhattan
            dsimp only
            omega
          obtain ⟨p, hp, hplen⟩ := ih (endc.1, endc.2 + 1) hprev hman'
          refine ⟨p ++ [endc], ValidPath.snoc hp ?_, by simp [hplen]⟩
          refine ⟨⟨(0, -1), by decide, ?_⟩, hib, hfree endc hib⟩
          show endc = (endc.1 + 0, endc.2 + 1 + -1)
          have e1 : endc.1 + 0 = endc.1 := by omega
          have e2 : endc.2 + 1 + -1 = endc.2 := by omega
          rw [e1, e2]

/-! ## The claims -/

/-- C1: for every grid and every in-bounds start connected to the destination
through free cells, `bfs` returns a non-empty 4-directional path through free
cells from start to destination whose cell count is minimal among all such
paths. -/
theorem bfs_shortest_path (grid : Grid) (start endc : Cell)
    (hs : inBounds grid start = true) (hreach : Reachable grid start endc) :
    bfs start endc grid ≠ [] ∧ ValidPath grid start endc (bfs start endc grid) ∧
      ∀ p, ValidPath grid start endc p → (bfs start endc grid).length ≤ p.length := by
  have hspec := bfs_spec grid start endc
  have hne : bfs start endc grid ≠ [] := by
    intro h
    exact (hspec.1.1 h) hreach
  exact ⟨hne, (hspec.2 hne).1, fun p hp => bfs_min grid start endc hne hp⟩

/-- Witness for C1 on the free 2×2 grid from (0,0) to (1,1). -/
theorem bfs_shortest_path_witness :
    bfs (0, 0) (1, 1) [[0, 0], [0, 0]] ≠ [] ∧
    ValidPath [[0, 0], [0, 0]] (0, 0) (1, 1) (bfs (0, 0) (1, 1) [[0, 0], [0, 0]]) ∧
    ∀ p, ValidPath [[0, 0], [0, 0]] (0, 0) (1, 1) p →
      (bfs (0, 0) (1, 1) [[0, 0], [0, 0]]).length ≤ p.length := by
  have h1 : ValidPath [[0, 0], [0, 0]] (0, 0) (1, 0) ([(0, 0)] ++ [(1, 0)]) :=
    ValidPath.snoc ValidPath.single (by decide)
  have h2 : ValidPath [[0, 0], [0, 0]] (0, 0) (1, 1) (([(0, 0)] ++ [(1, 0)]) ++ [(1, 1)]) :=
    ValidPath.snoc h1 (by decide)
  exact bfs_shortest_path [[0, 0], [0, 0]] (0, 0) (1, 1) (by decide) ⟨_, h2⟩

/-- C2: each search returns a non-empty path exactly when the destination is
reachable from the start through free cells; when it is unreachable, both
return the empty sequence. -/
theorem searches_nonempty_iff_reachable (grid : Grid) (start endc : Cell)
    (hs : inBounds grid start = true) :
    (bfs start endc grid ≠ [] ↔ Reachable grid start endc) ∧
    (dfs start endc grid ≠ [] ↔ Reachable grid start endc) ∧
    (¬Reachable grid start endc → bfs start endc grid = [] ∧ dfs start endc grid = []) := by
  have hb := bfs_spec grid start endc
  have hd := dfs_spec grid start endc
  refine ⟨⟨fun h => ⟨_, (hb.2 h).1⟩, fun hr h => (hb.1.1 h) hr⟩,
    ⟨fun h => ⟨_, (hd.2 h).1⟩, fun hr h => (hd.1.1 h) hr⟩,
    fun hnr => ⟨hb.1.2 hnr, hd.1.2 hnr⟩⟩

/-- Witness for C2 on the free 1×2 grid. -/
theorem searches_nonempty_iff_reachable_witness :
    (bfs (0, 0) (0, 1) [[0, 0]] ≠ [] ↔ Reachable [[0, 0]] (0, 0) (0, 1)) ∧
    (dfs (0, 0) (0, 1) [[0, 0]] ≠ [] ↔ Reachable [[0, 0]] (0, 0) (0, 1)) ∧
    (¬Reachable [[0, 0]] (0, 0) (0, 1) →
      bfs (0, 0) (0, 1) [[0, 0]] = [] ∧ dfs (0, 0) (0, 1) [[0, 0]] = []) :=
  searches_nonempty_iff_reachable [[0, 0]] (0, 0) (0, 1) (by decide)

/-- C3: a non-empty result of either search has the start as its first cell
and the destination as its last cell. -/
theorem path_endpoints (grid : Grid) (start endc : Cell) (res : List Cell)
    (hres : res = bfs start endc grid ∨ res = dfs start endc grid) (hne : res ≠ []) :
    res.head? = some start ∧ res.getLast? = some endc := by
  have hvp : ValidPath grid start endc res := by
    rcases hres with rfl | rfl
    · exact ((bfs_spec grid start endc).2 hne).1
    · exact ((dfs_spec grid start endc).2 hne).1
  exact ⟨validPath_head hvp, validPath_getLast hvp⟩

/-- Witness for C3: the breadth-first path on the free 2×2 grid. -/
theorem path_endpoints_witness :
    ([(0, 0), (1, 0), (1, 1)] : List Cell).head? = some (0, 0) ∧
    ([(0, 0), (1, 0), (1, 1)] : List Cell).getLast? = some (1, 1) :=
  path_endpoints [[0, 0], [0, 0]] (0, 0) (1, 1) [(0, 0), (1, 0), (1, 1)]
    (Or.inl (by decide)) (by decide)

/-- C4: in a non-empty result of either search, every pair of consecutive
cells differs by exactly one of the four fixed direction offsets. -/
theorem path_consecutive_offsets (grid : Grid) (start endc : Cell) (res : List Cell)
    (hres : res = bfs start endc grid ∨ res = dfs start endc grid) (hne : res ≠ []) :
    res.Chain' (fun a b => ∃ d ∈ directions, b = (a.1 + d.1, a.2 + d.2)) := by
  have hvp : ValidPath grid start endc res := by
    rcases hres with rfl | rfl
    · exact ((bfs_spec grid start endc).2 hne).1
    · exact ((dfs_spec grid start endc).2 hne).1
  exact validPath_chain' hvp

/-- Witness for C4: the depth-first path on the free 2×2 grid. -/
theorem path_consecutive_offsets_witness :
    ([(0, 0), (0, 1), (1, 1)] : List Cell).Chain'
      (fun a b => ∃ d ∈ directions, b = (a.1 + d.1, a.2 + d.2)) :=
  path_consecutive_offsets [[0, 0], [0, 0]] (0, 0) (1, 1) [(0, 0), (0, 1), (1, 1)]
    (Or.inr (by decide)) (by decide)

/-- C5: in a non-empty result of either search, every cell after the start
cell is in-bounds and free, and no cell occurs twice. -/
theorem path_cells_valid (grid : Grid) (start endc : Cell) (res : List Cell)
    (hres : res = bfs start endc grid ∨ res = dfs start endc grid) (hne : res ≠ []) :
    (∀ c ∈ res.tail, inBounds grid c = true ∧ freeCell grid c = true) ∧ res.Nodup := by
  have hvp : ValidPath grid start endc res ∧ res.Nodup := by
    rcases hres with rfl | rfl
    · exact (bfs_spec grid start endc).2 hne
    · exact (dfs_spec grid start endc).2 hne
  obtain ⟨t, heq, ht⟩ := validPath_shape hvp.1
  refine ⟨?_, hvp.2⟩
  intro c hc
  rw [heq] at hc
  exact ht c hc

/-- Witness for C5: the breadth-first path on the free 2×2 grid. -/
theorem path_cells_valid_witness :
    (∀ c ∈ ([(0, 0), (1, 0), (1, 1)] : List Cell).tail,
      inBounds [[0, 0], [0, 0]] c = true ∧ freeCell [[0, 0], [0, 0]] c = true) ∧
    ([(0, 0), (1, 0), (1, 1)] : List Cell).Nodup :=
  path_cells_valid [[0, 0], [0, 0]] (0, 0) (1, 1) [(0, 0), (1, 0), (1, 1)]
    (Or.inl (by decide)) (by decide)

/-- C6: on a rectangular grid with no obstacles, the breadth-first path
between two in-bounds cells has cell count equal to their Manhattan distance
plus one. -/
theorem bfs_length_manhattan (grid : Grid) (start endc : Cell)
    (hrect : ∀ row ∈ grid, row.length = cols grid)
    (hzero : ∀ row ∈ grid, ∀ v ∈ row, v = 0)
    (hs : inBounds grid start = true) (he : inBounds grid endc = true) :
    (bfs start endc grid).length = manhattan start endc + 1 := by
  have hfree : ∀ c : Cell, inBounds grid c = true → freeCell grid c = true :=
    fun c hc => freeCell_of_all_zero hrect hzero hc
  obtain ⟨p, hp, hplen⟩ :=
    exists_manhattan_path grid hfree start hs (manhattan start endc) endc he rfl
  have hspec := bfs_spec grid start endc
  have hne : bfs start endc grid ≠ [] := by
    intro h
    exact (hspec.1.1 h) ⟨p, hp⟩
  have hle : (bfs start endc grid).length ≤ p.length := bfs_min grid start endc hne hp
  have hge := manhattan_le_of_validPath (hspec.2 hne).1
  omega

/-- Witness for C6 on the free 2×2 grid from (0,0) to (1,1). -/
theorem bfs_length_manhattan_witness :
    (bfs (0, 0) (1, 1) [[0, 0], [0, 0]]).length = manhattan (0, 0) (1, 1) + 1 :=
  bfs_length_manhattan [[0, 0], [0, 0]] (0, 0) (1, 1)
    (by decide) (by decide) (by decide) (by decide)

/-- C7: when start and destination coincide at an in-bounds cell, both
searches return the single-cell path containing only that cell. -/
theorem search_start_eq_dest (grid : Grid) (c : Cell) (hc : inBounds grid c = true) :
    bfs c c grid = [c] ∧ dfs c c grid = [c] :=
  search_self_eq grid c

/-- Witness for C7 at (4,4) on the empty 10×10 grid. -/
theorem search_start_eq_dest_witness :
    bfs (4, 4) (4, 4) (List.replicate 10 (List.replicate 10 0)) = [(4, 4)] ∧
    dfs (4, 4) (4, 4) (List.replicate 10 (List.replicate 10 0)) = [(4, 4)] :=
  search_start_eq_dest (List.replicate 10 (List.replicate 10 0)) (4, 4) (by decide)

/-- C8 as stated is false: on the 1×1 grid whose only cell is blocked, with
start = destination = (0,0), the destination is in bounds and blocked, yet
both searches return the non-empty single-cell path instead of the empty
path, because the `current == end` test fires before any occupancy check. -/
theorem blocked_dest_counterexample :
    inBounds [[1]] (0, 0) = true ∧ freeCell [[1]] (0, 0) = false ∧
    bfs (0, 0) (0, 0) [[1]] = [(0, 0)] ∧ dfs (0, 0) (0, 0) [[1]] = [(0, 0)] := by
  decide

/-- C8 (amended): both searches run to a result on every in-bounds start and
destination; a blocked start is still expanded, so any destination reachable
through free cells is found even from a blocked start; a blocked destination
yields the empty path unless it equals the start, in which case the
single-cell path is returned regardless of occupancy. -/
theorem blocked_cells_amended (grid : Grid) (start endc : Cell)
    (hs : inBounds grid start = true) (he : inBounds grid endc = true) :
    (freeCell grid endc = false → start ≠ endc →
      bfs start endc grid = [] ∧ dfs start endc grid = []) ∧
    (start = endc → bfs start endc grid = [start] ∧ dfs start endc grid = [start]) ∧
    (Reachable grid start endc → bfs start endc grid ≠ [] ∧ dfs start endc grid ≠ []) := by
  have hb := bfs_spec grid start endc
  have hd := dfs_spec grid start endc
  refine ⟨?_, ?_, ?_⟩
  · intro hbl hne
    have hnr := not_reachable_of_blocked hbl hne
    exact ⟨hb.1.2 hnr, hd.1.2 hnr⟩
  · intro h
    subst h
    exact search_self_eq grid start
  · intro hr
    exact ⟨fun h => (hb.1.1 h) hr, fun h => (hd.1.1 h) hr⟩

/-- Witness for the amended C8 on a 2×2 grid with cell (0,1) blocked. -/
theorem blocked_cells_amended_witness :
    (freeCell [[0, 1], [0, 0]] (0, 1) = false → ((0 : Int), (0 : Int)) ≠ ((0 : Int), (1 : Int)) →
      bfs (0, 0) (0, 1) [[0, 1], [0, 0]] = [] ∧ dfs (0, 0) (0, 1) [[0, 1], [0, 0]] = []) ∧
    (((0 : Int), (0 : Int)) = ((0 : Int), (1 : Int)) →
      bfs (0, 0) (0, 1) [[0, 1], [0, 0]] = [(0, 0)] ∧
      dfs (0, 0) (0, 1) [[0, 1], [0, 0]] = [(0, 0)]) ∧
    (Reachable [[0, 1], [0, 0]] (0, 0) (0, 1) →
      bfs (0, 0) (0, 1) [[0, 1], [0, 0]] ≠ [] ∧ dfs (0, 0) (0, 1) [[0, 1], [0, 0]] ≠ []) :=
  blocked_cells_amended [[0, 1], [0, 0]] (0, 0) (0, 1) (by decide) (by decide)

/-- C9: whenever both searches return non-empty paths for the same inputs,
the breadth-first path is no longer than the depth-first one. -/
theorem bfs_length_le_dfs_length (grid : Grid) (start endc : Cell)
    (hb : bfs start endc grid ≠ []) (hd : dfs start endc grid ≠ []) :
    (bfs start endc grid).length ≤ (dfs start endc grid).length :=
  bfs_min grid start endc hb ((dfs_spec grid start endc).2 hd).1

/-- Witness for C9 on the free 2×2 grid. -/
theorem bfs_length_le_dfs_length_witness :
    (bfs (0, 0) (1, 1) [[0, 0], [0, 0]]).length ≤
      (dfs (0, 0) (1, 1) [[0, 0], [0, 0]]).length :=
  bfs_length_le_dfs_length [[0, 0], [0, 0]] (0, 0) (1, 1) (by decide) (by decide)

/-- C10: both searches terminate within `rows * cols + 1` loop iterations:
since each cell is marked visited at most once and only unvisited cells join
the frontier, running the loop with any larger iteration bound returns the
very same result. -/
theorem search_terminates (grid : Grid) (start endc : Cell) (fuel : Nat)
    (hfuel : searchFuel grid ≤ fuel) :
    searchLoop pushBFS grid endc fuel [start] [start] [(start, none)] =
      bfs start endc grid ∧
    searchLoop pushDFS grid endc fuel [start] [start] [(start, none)] =
      dfs start endc grid := by
  obtain ⟨k, rfl⟩ : ∃ k, fuel = searchFuel grid + k := ⟨fuel - searchFuel grid, by omega⟩
  exact ⟨searchLoop_fuel_ge pushBFS pushBFS_length k (searchFuel grid) _ _ _
      (init_fuel_le grid start),
    searchLoop_fuel_ge pushDFS pushDFS_length k (searchFuel grid) _ _ _
      (init_fuel_le grid start)⟩

/-- Witness for C10 on the free 1×1 grid with a larger fuel of 5. -/
theorem search_terminates_witness :
    searchLoop pushBFS [[0]] (0, 0) 5 [(0, 0)] [(0, 0)] [((0, 0), none)] =
      bfs (0, 0) (0, 0) [[0]] ∧
    searchLoop pushDFS [[0]] (0, 0) 5 [(0, 0)] [(0, 0)] [((0, 0), none)] =
      dfs (0, 0) (0, 0) [[0]] :=
  search_terminates [[0]] (0, 0) (0, 0) 5 (by decide)

/-! ## Concrete scenarios from the specification -/

example : bfs (0, 0) (1, 1) [[0, 0], [0, 0]] = [(0, 0), (1, 0), (1, 1)] := by decide

example : dfs (0, 0) (1, 1) [[0, 0], [0, 0]] = [(0, 0), (0, 1), (1, 1)] := by decide

example : bfs (0, 0) (2, 2) [[0, 0, 0], [0, 0, 0], [0, 0, 0]] =
    [(0, 0), (1, 0), (2, 0), (2, 1), (2, 2)] := by decide

example : bfs (0, 0) (2, 2) [[0, 1, 0], [1, 1, 0], [0, 0, 0]] = [] := by decide

example : dfs (0, 0) (2, 2) [[0, 1, 0], [1, 1, 0], [0, 0, 0]] = [] := by decide

example : bfs (0, 0) (0, 0) [[1]] = [(0, 0)] := by decide

end Robot
